import Mathlib

/-!
Shallow embedding of `src/sql/src/backends/monet5/merovingian/utils.c`
(MonetDB merovingian shared utilities): the typed configuration
key/value store (`confkeyval`, `setConfVal`, `readConfFile`,
`freeConfFile`), the string helpers (`replacePrefix`,
`secondsToString`, `abbreviateString`) and the salt generator
(`generateSalt`).

Modelling conventions:
* C strings are `List Char` (byte payloads; the terminating NUL is
  implicit except where the code writes it into a caller's buffer);
* `NULL` pointers and absent values are `Option`;
* the C random source (`rand()`) is a stream `Nat → Nat` of the
  successive values it returns;
* buffers written by `memcpy`/`sprintf` are partial maps
  `Nat → Option Char`, `none` at offsets never written;
* `time_t` inputs are `Nat` (the claims restrict to `t ≥ 0`), and the
  `(int)` casts of the source are modelled by `intCast32`, a wrap into
  `[-2^31, 2^31)`.
-/

/-- The value type of a `confkeyval` entry, from the switch in
`setConfVal`: `INVALID`, `INT`, `BOOL`, `MURI`, `STR`, `OTHER`. -/
inductive ConfType where
  | INVALID
  | INT
  | BOOL
  | MURI
  | STR
  | OTHER
deriving DecidableEq, Repr

/-- The `confkeyval` struct: a key, an optional allocator-owned value
and a type tag (layout from its uses in `utils.c` and §3 of the spec;
the list's terminating sentinel with `key == NULL` is represented by
the end of the Lean list, so `key` here is always present). -/
structure confkeyval where
  key : List Char
  val : Option (List Char)
  type : ConfType
deriving DecidableEq, Repr

/-- `*p >= '0' && *p <= '9'`: an ASCII decimal digit byte. -/
def isDigitChar (c : Char) : Bool :=
  decide ('0' ≤ c ∧ c ≤ '9')

/-- `tolower` on a byte, as used by `strcasecmp`: fold A–Z to a–z. -/
def lowerChar (c : Char) : Char :=
  if 'A' ≤ c ∧ c ≤ 'Z' then Char.ofNat (c.toNat + 32) else c

/-- `snprintf(buf, sizeof(buf), ...)` with a 256-byte buffer: the
formatted message truncated to 255 payload bytes. -/
def diag256 (msg : List Char) : List Char := msg.take 255

/-- `setConfVal(ckv, val)` from `utils.c`: returns the diagnostic (or
`none` on success) together with the updated entry.  `val == NULL`
unsets; `INVALID` always fails; `INT` scans leading digit bytes and
fails if a non-digit remains; `BOOL` coerces with `strcasecmp`
true/yes/1 and false/no/0; `MURI` requires the 15-byte prefix
`mapi:monetdb://` (`strncmp`); `STR`/`OTHER` accept anything.  On any
failure the entry is returned untouched. -/
def setConfVal (ckv : confkeyval) (val : Option (List Char)) :
    Option (List Char) × confkeyval :=
  match val with
  | none => (none, { ckv with val := none })
  | some v =>
    match ckv.type with
    | ConfType.INVALID =>
        (some (diag256 ("key '".toList ++ ckv.key ++
          "' is unitialised (invalid value), internal error".toList)), ckv)
    | ConfType.INT =>
        if v.dropWhile isDigitChar ≠ [] then
          (some (diag256 ("key '".toList ++ ckv.key ++
            "' requires an integer-type value, got: ".toList ++ v)), ckv)
        else
          (none, { ckv with val := some v })
    | ConfType.BOOL =>
        if v.map lowerChar = "true".toList ∨ v.map lowerChar = "yes".toList ∨
            v = "1".toList then
          (none, { ckv with val := some "yes".toList })
        else if v.map lowerChar = "false".toList ∨ v.map lowerChar = "no".toList ∨
            v = "0".toList then
          (none, { ckv with val := some "no".toList })
        else
          (some (diag256 ("key '".toList ++ ckv.key ++
            "' requires a boolean-type value, got: ".toList ++ v)), ckv)
    | ConfType.MURI =>
        if v.take 15 ≠ "mapi:monetdb://".toList then
          (some (diag256 ("key '".toList ++ ckv.key ++
            "' requires a mapi:monetdb:// URI value, got: ".toList ++ v)), ckv)
        else
          (none, { ckv with val := some v })
    | ConfType.STR => (none, { ckv with val := some v })
    | ConfType.OTHER => (none, { ckv with val := some v })

/-- The canonical stored form of input `v` for an entry of type `t`,
following §3 of the spec: `v` itself for INT/MURI/STR/OTHER, the
case-insensitively coerced `"yes"`/`"no"` for BOOL, absent when `v` is
absent. -/
def canonVal (t : ConfType) (v : Option (List Char)) : Option (List Char) :=
  match v with
  | none => none
  | some s =>
    match t with
    | ConfType.BOOL =>
        if s.map lowerChar = "true".toList ∨ s.map lowerChar = "yes".toList ∨
            s = "1".toList then some "yes".toList
        else some "no".toList
    | _ => some s

/-- Case-insensitive truthy inputs per the spec: `{true, yes}` in any
case, or the exact string `1`. -/
def boolYesInput (v : List Char) : Prop :=
  v.map lowerChar = "true".toList ∨ v.map lowerChar = "yes".toList ∨ v = "1".toList

/-- Case-insensitive falsy inputs per the spec: `{false, no}` in any
case, or the exact string `0`. -/
def boolNoInput (v : List Char) : Prop :=
  v.map lowerChar = "false".toList ∨ v.map lowerChar = "no".toList ∨ v = "0".toList

instance (v : List Char) : Decidable (boolYesInput v) := by
  unfold boolYesInput; infer_instance

instance (v : List Char) : Decidable (boolNoInput v) := by
  unfold boolNoInput; infer_instance

/-- One `fgets(buf, 1024, cnf)` call on the remaining stream: take
bytes up to and including the first newline, but at most `n` (1023)
payload bytes. -/
def takeLine : Nat → List Char → List Char
  | 0, _ => []
  | _, [] => []
  | n + 1, c :: cs => if c = '\n' then [c] else c :: takeLine n cs

/-- The successive chunks `fgets(buf, 1024, cnf)` returns on a byte
stream, fuel-driven; every chunk of a non-empty stream is non-empty,
so `bytes.length` is always enough fuel. -/
def fgetsChunks : Nat → List Char → List (List Char)
  | 0, _ => []
  | _ + 1, [] => []
  | fuel + 1, c :: cs =>
    takeLine 1023 (c :: cs) ::
      fgetsChunks fuel ((c :: cs).drop (takeLine 1023 (c :: cs)).length)

/-- All the chunks `fgets` yields on the whole stream. -/
def readLines (bytes : List Char) : List (List Char) :=
  fgetsChunks bytes.length bytes

/-- `buf[strlen(buf) - 1] = '\0'` applied to a chunk: the effective C
string afterwards.  `strlen` stops at the first NUL byte of the chunk,
and the write chops the byte at `strlen - 1`, whatever it is. -/
def chopLast (chunk : List Char) : List Char :=
  (chunk.takeWhile (· ≠ '\x00')).dropLast

/-- The loader's per-entry test `*buf && strncmp(buf, t->key, len) == 0
&& buf[len] == '='`: the line is non-empty, starts with the entry's
key, and the byte right after the key is `=`. -/
def keyMatches (e : confkeyval) (ln : List Char) : Prop :=
  ln ≠ [] ∧ ln.take e.key.length = e.key ∧ ln[e.key.length]? = some '='

instance (e : confkeyval) (ln : List Char) : Decidable (keyMatches e ln) := by
  unfold keyMatches; infer_instance

/-- The loader's inner `for (t = list; t->key != NULL; t++)` loop for
one already-chopped line: every entry the line selects receives
`setConfVal` with the bytes after the `=`; the diagnostic, if any, is
freed and ignored. -/
def processLine (list : List confkeyval) (line : List Char) : List confkeyval :=
  list.map fun e =>
    if keyMatches e line then (setConfVal e (some (line.drop (e.key.length + 1)))).2
    else e

/-- `readConfFile(list, cnf)` from `utils.c`: for each `fgets` chunk,
chop the last byte of its effective string and run the entry loop. -/
def readConfFile (list : List confkeyval) (cnf : List Char) : List confkeyval :=
  (readLines cnf).foldl (fun l chunk => processLine l (chopLast chunk)) list

/-- `freeConfFile(list)` from `utils.c`: release every value and set it
to `NULL`; keys and types are untouched. -/
def freeConfFile (list : List confkeyval) : List confkeyval :=
  list.map fun e => { e with val := none }

/-- `strstr(s, pat)` as an index: the first position of `s` where
`pat` occurs, or `none`. -/
def firstOccurIdx (pat : List Char) : List Char → Option Nat
  | [] => if pat = [] then some 0 else none
  | c :: cs =>
    if (c :: cs).take pat.length = pat then some 0
    else (firstOccurIdx pat cs).map (· + 1)

/-- `pat` occurs in `s` at position `i`. -/
def occursAt (pat s : List Char) (i : Nat) : Prop :=
  (s.drop i).take pat.length = pat

/-- The literal 9-byte token `${prefix}` of `replacePrefix`. -/
def substToken : List Char := "$\x7bprefix\x7d".toList

/-- `replacePrefix(s, prefix)` from `utils.c`: `NULL` maps to `NULL`;
otherwise the first occurrence of the token `${prefix}` (and only it)
is replaced by `pre` via the three `memcpy`s, and without an
occurrence the string is duplicated unchanged.  (The C working buffer
is 1024 bytes; the claim says nothing about overflow, and the model
keeps the full concatenation.) -/
def replacePrefix (s : Option (List Char)) (pre : List Char) : Option (List Char) :=
  match s with
  | none => none
  | some str =>
    match firstOccurIdx substToken str with
    | some i => some (str.take i ++ pre ++ str.drop (i + 9))
    | none => some str

instance (pat s : List Char) (i : Nat) : Decidable (occursAt pat s i) := by
  unfold occursAt; infer_instance

/-- A caller-supplied output buffer as a partial map from byte offsets
to written bytes: `none` where nothing has been written (uninitialised
stack memory in the C caller). -/
def emptyBuf : Nat → Option Char := fun _ => none

/-- `memcpy(buf + off, data, data.length)` (or `sprintf` writing
`data` including its terminator) on such a buffer: bytes inside the
written window come from `data`, the rest keep their previous state. -/
def memwrite (m : Nat → Option Char) (off : Nat) (data : List Char)
    (i : Nat) : Option Char :=
  if off ≤ i ∧ i < off + data.length then data[i - off]? else m i

/-- `abbreviateString(ret, in, width)` from `utils.c`, as the state of
the output buffer at offset `i`: when `strlen(in) > width` the three
`memcpy`s write the first `width/2 - 3` input bytes at offset 0, the
marker `...` at offset `width/2 - 2`, and the input tail plus NUL at
offset `width/2 + 1`; otherwise `sprintf(ret, "%s", in)` copies the
whole string and terminator.  Nat subtraction stands in for the C
`size_t` arithmetic; in the abbreviating branch the two agree whenever
`width ≥ 6` (below that the C offsets wrap around and the call is
wild). -/
def abbreviateString (input : List Char) (width : Nat) (i : Nat) : Option Char :=
  if input.length > width then
    memwrite (memwrite (memwrite emptyBuf 0 (input.take (width / 2 - 3)))
      (width / 2 - 2) "...".toList)
      (width / 2 + 1)
      (input.drop (input.length - (width - (width / 2 - 2) - 3)) ++ ['\x00']) i
  else memwrite emptyBuf 0 (input ++ ['\x00']) i

/-- The `seedChars` table from `utils.c`: 26 lowercase letters, 26
uppercase letters, and the ten digits (in the source's order
`'1'..'9','0'`), 62 bytes in all. -/
def seedChars : List Char :=
  ['a', 'b', 'c', 'd', 'e', 'f', 'g', 'h', 'i', 'j',
   'k', 'l', 'm', 'n', 'o', 'p', 'q', 'r', 's', 't', 'u', 'v', 'w', 'x',
   'y', 'z', 'A', 'B', 'C', 'D', 'E', 'F', 'G', 'H', 'I', 'J', 'K', 'L',
   'M', 'N', 'O', 'P', 'Q', 'R', 'S', 'T', 'U', 'V', 'W', 'X', 'Y', 'Z',
   '1', '2', '3', '4', '5', '6', '7', '8', '9', '0']

/-- An alphanumeric byte: lowercase letter, uppercase letter or digit
(the spec's 62-character alphabet). -/
def isAlnum (c : Char) : Prop :=
  ('a' ≤ c ∧ c ≤ 'z') ∨ ('A' ≤ c ∧ c ≤ 'Z') ∨ ('0' ≤ c ∧ c ≤ '9')

instance (c : Char) : Decidable (isAlnum c) := by
  unfold isAlnum; infer_instance

/-- `generateSalt(buf, len)` from `utils.c`, with the random source as
the stream `rnd` of values `rand()` returns (`rnd 0` picks the size,
`rnd (c+1)` the character at position `c`).  `fill = len * 0.75` and
`min = len * 0.42` are modelled as `3*len/4` and `42*len/100`: `0.75`
is a dyadic rational so the first is exact, and for the second the
nearest double to `0.42` lies `1.1e-16` relatively above it, close
enough that the truncation of `len * 0.42` agrees with
`⌊42·len/100⌋` for every `len < 2^32`.  The `getD` default is never
used: the index is always reduced mod 62 = `seedChars.length`. -/
def generateSalt (rnd : Nat → Nat) (len : Nat) : List Char :=
  (List.range len).map fun c =>
    if c < rnd 0 % (3 * len / 4 - 42 * len / 100) + 42 * len / 100 then
      seedChars.getD (rnd (c + 1) % 62) 'a'
    else '\x00'

/-- One decimal digit as a byte (callers only pass `d < 10`; the
out-of-range default is arbitrary). -/
def digitToChar (d : Nat) : Char :=
  match d with
  | 0 => '0' | 1 => '1' | 2 => '2' | 3 => '3' | 4 => '4'
  | 5 => '5' | 6 => '6' | 7 => '7' | 8 => '8' | _ => '9'

/-- The numeric value of a digit byte. -/
def charToDigit (c : Char) : Nat := c.toNat - 48

/-- Decimal digits of `n` prepended to `acc`, as `sprintf("%d")`
renders a non-negative value; `fuel` only drives the recursion and
`n < fuel` always holds at call sites. -/
def natToCharsAux : Nat → Nat → List Char → List Char
  | 0, _, acc => acc
  | fuel + 1, n, acc =>
    if n < 10 then digitToChar n :: acc
    else natToCharsAux fuel (n / 10) (digitToChar (n % 10) :: acc)

/-- `sprintf("%d", n)` for `n ≥ 0`. -/
def natToChars (n : Nat) : List Char := natToCharsAux (n + 1) n []

/-- The C cast `(int)` of a non-negative integer-valued expression:
wrap modulo `2^32` into `[-2^31, 2^31)`. -/
def intCast32 (n : Nat) : Int :=
  if n % 2 ^ 32 < 2 ^ 31 then ((n % 2 ^ 32 : Nat) : Int)
  else ((n % 2 ^ 32 : Nat) : Int) - 2 ^ 32

/-- `sprintf("%d", v)` for a possibly negative `int` value. -/
def intToChars (v : Int) : List Char :=
  if v < 0 then '-' :: natToChars v.natAbs else natToChars v.toNat

/-- The running state of `secondsToString`: the bytes written so far,
the remaining seconds, the remaining `longness` budget, and whether an
early `return` has fired. -/
structure S2S where
  buf : List Char
  t : Nat
  longness : Int
  done : Bool

/-- One of the four identical unit blocks of `secondsToString`
(`p` the unit weight, `u` its letter): if `t > p`, print the count
(cast to `int`) and the letter, subtract, decrement `longness` and
return early when it hits zero, else append the separating space. -/
def s2sBlock (p : Nat) (u : Char) (s : S2S) : S2S :=
  if s.done then s
  else if s.t > p then
    if s.longness - 1 = 0 then
      ⟨s.buf ++ intToChars (intCast32 (s.t / p)) ++ [u],
        s.t - s.t / p * p, s.longness - 1, true⟩
    else
      ⟨s.buf ++ intToChars (intCast32 (s.t / p)) ++ [u] ++ [' '],
        s.t - s.t / p * p, s.longness - 1, false⟩
  else s

/-- The final seconds block of `secondsToString`: unless an early
return fired, print `"%ds"` — except when `--longness` stays non-zero,
something was already printed and no seconds remain, in which case the
trailing space is erased instead (`buf[--i] = '\0'`). -/
def s2sFinal (s : S2S) : List Char :=
  if s.done then s.buf
  else if s.longness - 1 = 0 ∨ ¬ (s.buf.length > 0 ∧ s.t = 0) then
    s.buf ++ intToChars (intCast32 s.t) ++ ['s']
  else s.buf.dropLast

/-- `secondsToString(buf, t, longness)` from `utils.c` for `t ≥ 0`:
the four unit blocks (weeks, days, hours, minutes), then the final
seconds block. -/
def secondsToString (t : Nat) (longness : Int) : List Char :=
  s2sFinal (s2sBlock 60 'm' (s2sBlock 3600 'h' (s2sBlock 86400 'd'
    (s2sBlock 604800 'w' ⟨[], t, longness, false⟩))))

/-- The unit letters of the formatter and their weights in seconds. -/
def unitWeight (u : Char) : Option Nat :=
  if u = 'w' then some 604800
  else if u = 'd' then some 86400
  else if u = 'h' then some 3600
  else if u = 'm' then some 60
  else if u = 's' then some 1
  else none

/-- The value of a digit string, most significant first. -/
def charsToNat (ds : List Char) : Nat :=
  ds.foldl (fun a c => a * 10 + charToDigit c) 0

/-- Parse a formatted duration as the claim reads it: space-separated
components, each a non-empty run of digits followed by one unit
letter, yielding (value, weight) pairs.  `fuel` only drives the
recursion; `s.length` is always enough. -/
def parseCompsAux : Nat → List Char → Option (List (Nat × Nat))
  | 0, _ => none
  | fuel + 1, s =>
    match s.dropWhile isDigitChar with
    | [] => none
    | u :: rest =>
      if s.takeWhile isDigitChar = [] then none
      else
        match unitWeight u with
        | none => none
        | some w =>
          match rest with
          | [] => some [(charsToNat (s.takeWhile isDigitChar), w)]
          | sp :: rest2 =>
            if sp = ' ' ∧ rest2 ≠ [] then
              (parseCompsAux fuel rest2).map
                (fun l => (charsToNat (s.takeWhile isDigitChar), w) :: l)
            else none

/-- Parse a whole formatted duration. -/
def parseComps (s : List Char) : Option (List (Nat × Nat)) :=
  parseCompsAux s.length s

/-- The total seconds of a parsed component list. -/
def sumComps (l : List (Nat × Nat)) : Nat :=
  (l.map fun c => c.1 * c.2).sum

/-- A printed component: the decimal count followed by its unit
letter. -/
def renderComp (c : Nat × Char) : List Char := natToChars c.1 ++ [c.2]

/-- Space-separated components, no trailing separator: the shape of a
finished `secondsToString` buffer. -/
def renderSep : List (Nat × Char) → List Char
  | [] => []
  | [c] => renderComp c
  | c :: c2 :: rest => renderComp c ++ ' ' :: renderSep (c2 :: rest)

/-- The in-progress buffer shape: every printed component is followed
by its separating space. -/
def bufOf : List (Nat × Char) → List Char
  | [] => []
  | c :: rest => renderComp c ++ [' '] ++ bufOf rest

/-- The weight a unit letter carries when parsing. -/
def weightOf (u : Char) : Nat := (unitWeight u).getD 0

/-- The seconds total of a component list as (count, letter) pairs. -/
def sumC (comps : List (Nat × Char)) : Nat :=
  (comps.map fun c => c.1 * weightOf c.2).sum

/-- Truthy and falsy inputs never overlap: the coercion target of a
BOOL `set` is unambiguous. -/
theorem boolInput_disjoint (v : List Char) :
    boolYesInput v → boolNoInput v → False := by
  rintro (h1 | h1 | h1) (h2 | h2 | h2) <;>
    first
      | (rw [h1] at h2; exact absurd h2 (by decide))
      | (rw [h2] at h1; exact absurd h1 (by decide))

/-- C1: `setConfVal(e, v)` is atomic: either it returns a diagnostic
and the entry is exactly what it was before the call, or it returns
`NULL` and the entry holds the canonical form of `v` for `e`'s type
(`v` itself for INT/MURI/STR/OTHER, the coerced yes/no for BOOL,
absent when `v` is `NULL`), with key and type untouched. -/
theorem setConfVal_atomic (e : confkeyval) (v : Option (List Char)) :
    (setConfVal e v).2 =
      if (setConfVal e v).1 = none then { e with val := canonVal e.type v } else e := by
  obtain ⟨key, val, ty⟩ := e
  cases v with
  | none => simp [setConfVal, canonVal]
  | some s => cases ty <;> simp only [setConfVal, canonVal] <;> split_ifs <;> simp_all

/-- C2: for a BOOL entry, any case variant of `true`/`yes` or the
string `1` succeeds and stores exactly `"yes"`; any case variant of
`false`/`no` or the string `0` succeeds and stores exactly `"no"`;
every other input returns a diagnostic. -/
theorem setConfVal_bool_coercion (e : confkeyval) (v : List Char)
    (hb : e.type = ConfType.BOOL) :
    (boolYesInput v →
      setConfVal e (some v) = (none, { e with val := some "yes".toList })) ∧
    (boolNoInput v →
      setConfVal e (some v) = (none, { e with val := some "no".toList })) ∧
    (¬ boolYesInput v → ¬ boolNoInput v →
      ∃ d, (setConfVal e (some v)).1 = some d) := by
  obtain ⟨key, val, ty⟩ := e
  cases hb
  refine ⟨fun hy => ?_, fun hn => ?_, fun hy hn => ?_⟩ <;>
    simp only [setConfVal] <;> split_ifs with h1 h2 <;>
    first
      | rfl
      | exact absurd hy h1
      | exact absurd hn h2
      | exact (boolInput_disjoint v h1 hn).elim
      | exact absurd h1 hy
      | exact absurd h2 hn
      | exact ⟨_, rfl⟩

/-- Witness for C2 at a concrete entry and input: `set(exit, "TRUE")`
succeeds and stores `"yes"`. -/
theorem setConfVal_bool_coercion_witness :
    boolYesInput "TRUE".toList ∧
      setConfVal ⟨"exit".toList, none, ConfType.BOOL⟩ (some "TRUE".toList) =
        (none, ⟨"exit".toList, some "yes".toList, ConfType.BOOL⟩) :=
  ⟨by decide,
    (setConfVal_bool_coercion ⟨"exit".toList, none, ConfType.BOOL⟩ "TRUE".toList
      rfl).1 (by decide)⟩

/-- C3 counterexample: on an INT entry the empty string is accepted
(`setConfVal` returns `NULL` and stores `""`), where the claim demands
a diagnostic: the digit scan `while ('0' <= *p && *p <= '9') p++`
stops immediately on `""` and `*p == '\0'` then passes the check. -/
theorem setConfVal_int_accepts_empty :
    setConfVal ⟨"port".toList, none, ConfType.INT⟩ (some []) =
      (none, ⟨"port".toList, some [], ConfType.INT⟩) := by decide

/-- C3 amended: for an INT entry, `setConfVal(e, v)` returns a
diagnostic if and only if `v` contains a non-digit byte; in particular
the empty string is accepted (and stored verbatim). -/
theorem setConfVal_int_diag_iff (e : confkeyval) (v : List Char)
    (h : e.type = ConfType.INT) :
    (setConfVal e (some v)).1 ≠ none ↔ ∃ c ∈ v, ¬ isDigitChar c := by
  obtain ⟨key, val, ty⟩ := e
  cases h
  simp only [setConfVal]
  split_ifs with hd
  · refine iff_of_true (by simp) ?_
    rw [ne_eq, List.dropWhile_eq_nil_iff] at hd
    push_neg at hd
    simpa using hd
  · refine iff_of_false (by simp) ?_
    rw [ne_eq, not_not, List.dropWhile_eq_nil_iff] at hd
    push_neg
    simpa using hd

/-- Witness for C3's amended claim: `set(port, "80a")` on an INT entry
returns a diagnostic because of the non-digit byte `a`. -/
theorem setConfVal_int_diag_iff_witness :
    (setConfVal ⟨"port".toList, some "50000".toList, ConfType.INT⟩
      (some "80a".toList)).1 ≠ none :=
  (setConfVal_int_diag_iff ⟨"port".toList, some "50000".toList, ConfType.INT⟩
    "80a".toList rfl).mpr (by decide)

/-- C5 (the code-bug run): on the stream `k=v` whose final line has no
trailing newline, `buf[strlen(buf) - 1] = '\0'` chops the payload byte
`v` instead of a newline, so the loader stores the empty value for key
`k` where the claim promises the intact payload `"v"`. -/
theorem readConfFile_chops_final_byte :
    (readConfFile [⟨"k".toList, none, ConfType.STR⟩] "k=v".toList).map
        confkeyval.val = [some []] ∧
      (readConfFile [⟨"k".toList, none, ConfType.STR⟩]
          ("k=v".toList ++ ['\n'])).map confkeyval.val = [some "v".toList] := by
  constructor <;> rfl

/-- C4 counterexample: the entry loop has no `break`, so one line can
set several entries.  With keys `a` and `a=b` the line `a=b=c` matches
both (`a` with remainder `b=c`, `a=b` with remainder `c`), and the
second — non-first — matching entry is modified as well, where the
claim says only the first matching entry is. -/
theorem readConfFile_sets_every_match :
    (readConfFile [⟨"a".toList, none, ConfType.STR⟩, ⟨"a=b".toList, none, ConfType.STR⟩]
        ("a=b=c".toList ++ ['\n'])).map confkeyval.val =
      [some "b=c".toList, some "c".toList] := by rfl

/-- `fgets` returns a newline-terminated line whole when it fits the
buffer: `takeLine` keeps every byte up to and including the newline. -/
theorem takeLine_newline (line : List Char) (n : Nat) (hn : '\n' ∉ line)
    (hlen : line.length < n) : takeLine n (line ++ ['\n']) = line ++ ['\n'] := by
  induction line generalizing n with
  | nil =>
    obtain ⟨m, rfl⟩ : ∃ m, n = m + 1 := ⟨n - 1, by omega⟩
    simp [takeLine]
  | cons c cs ih =>
    obtain ⟨m, rfl⟩ : ∃ m, n = m + 1 := ⟨n - 1, by omega⟩
    have hc : c ≠ '\n' := fun h => hn (h ▸ List.mem_cons_self c cs)
    simp only [List.cons_append, takeLine, if_neg hc, List.cons.injEq, true_and]
    exact ih m (fun h => hn (List.mem_cons_of_mem c h)) (by
      simpa using Nat.lt_of_succ_lt_succ (by simpa using hlen))

/-- A stream consisting of one newline-terminated line of at most 1022
payload bytes is read by `fgets` as exactly one chunk. -/
theorem readLines_single (line : List Char) (hn : '\n' ∉ line)
    (hlen : line.length ≤ 1022) :
    readLines (line ++ ['\n']) = [line ++ ['\n']] := by
  have htl : takeLine 1023 (line ++ ['\n']) = line ++ ['\n'] :=
    takeLine_newline line 1023 hn (by omega)
  cases line with
  | nil => rfl
  | cons c cs =>
    have hL : (c :: cs ++ ['\n']).length = (cs.length + 1) + 1 := by simp
    unfold readLines
    rw [hL]
    simp only [List.cons_append] at htl ⊢
    rw [fgetsChunks, htl]
    simp [List.drop_length, fgetsChunks]

/-- Chopping the last byte of a newline-terminated NUL-free line
removes exactly the newline. -/
theorem chopLast_newline (l : List Char) (hz : '\x00' ∉ l) :
    chopLast (l ++ ['\n']) = l := by
  have hall : ∀ x ∈ l ++ ['\n'], x ≠ '\x00' := by
    intro x hx
    rcases List.mem_append.mp hx with h | h
    · exact fun he => hz (he ▸ h)
    · simp only [List.mem_singleton] at h
      subst h
      decide
  unfold chopLast
  rw [List.takeWhile_eq_self_iff.mpr (by simpa using hall)]
  simp

/-- If two entries whose keys are free of `=` both match one line,
their keys coincide: were one key shorter, the other would contain the
`=` byte the line carries right after the shorter key. -/
theorem keyMatches_unique (e1 e2 : confkeyval) (ln : List Char)
    (n1 : '=' ∉ e1.key) (n2 : '=' ∉ e2.key)
    (h1 : keyMatches e1 ln) (h2 : keyMatches e2 ln) : e1.key = e2.key := by
  obtain ⟨-, p1, g1⟩ := h1
  obtain ⟨-, p2, g2⟩ := h2
  rcases Nat.lt_trichotomy e1.key.length e2.key.length with hlt | heq | hgt
  · have hx : e2.key[e1.key.length]? = some '=' := by
      rw [← p2, List.getElem?_take, if_pos hlt]
      exact g1
    exact absurd (List.getElem?_mem hx) n2
  · rw [← p1, ← p2, heq]
  · have hx : e1.key[e2.key.length]? = some '=' := by
      rw [← p1, List.getElem?_take, if_pos hgt]
      exact g2
    exact absurd (List.getElem?_mem hx) n1

/-- C4 amended: a one-line stream applies `setConfVal` once to *every*
entry whose key is a byte-prefix of the line immediately followed by
`=`, with the bytes after that `=` as value, and leaves all other
entries unchanged (lines matching no key change nothing).  Because the
entry loop has no `break`, several entries can be selected — but only
when some key contains the byte `=`; when no key does, all matching
entries share one key, so at most the first list position with that
key is distinct and the claim's "first match only" reading holds. -/
theorem readConfFile_line_update (list : List confkeyval) (line : List Char)
    (hn : '\n' ∉ line) (hz : '\x00' ∉ line) (hlen : line.length ≤ 1022) :
    readConfFile list (line ++ ['\n']) =
      list.map (fun e =>
        if keyMatches e line then
          (setConfVal e (some (line.drop (e.key.length + 1)))).2
        else e) ∧
    (∀ e1 ∈ list, ∀ e2 ∈ list, '=' ∉ e1.key → '=' ∉ e2.key →
      keyMatches e1 line → keyMatches e2 line → e1.key = e2.key) := by
  constructor
  · unfold readConfFile
    rw [readLines_single line hn hlen, List.foldl_cons, List.foldl_nil,
      chopLast_newline line hz]
    rfl
  · intro e1 _ e2 _ n1 n2 m1 m2
    exact keyMatches_unique e1 e2 line n1 n2 m1 m2

/-- Witness for C4's amended claim: the spec's loader scenario
`port=50000` against keys `port`/`logfile` updates exactly the
matching `port` entry. -/
theorem readConfFile_line_update_witness :
    readConfFile
        [⟨"port".toList, none, ConfType.INT⟩, ⟨"logfile".toList, none, ConfType.STR⟩]
        ("port=50000".toList ++ ['\n']) =
      [⟨"port".toList, none, ConfType.INT⟩,
        ⟨"logfile".toList, none, ConfType.STR⟩].map (fun e =>
          if keyMatches e "port=50000".toList then
            (setConfVal e (some ("port=50000".toList.drop (e.key.length + 1)))).2
          else e) :=
  (readConfFile_line_update
    [⟨"port".toList, none, ConfType.INT⟩, ⟨"logfile".toList, none, ConfType.STR⟩]
    "port=50000".toList (by decide) (by decide) (by decide)).1

/-- `setConfVal` never writes the key or type field. -/
theorem setConfVal_frame (e : confkeyval) (v : Option (List Char)) :
    (setConfVal e v).2.key = e.key ∧ (setConfVal e v).2.type = e.type := by
  obtain ⟨key, val, ty⟩ := e
  cases v with
  | none => simp [setConfVal]
  | some s => cases ty <;> simp only [setConfVal] <;> (try split_ifs) <;> simp

/-- The loader's inner loop never writes a key or type field. -/
theorem processLine_frame (l : List confkeyval) (ln : List Char) (i : Nat) :
    ((processLine l ln)[i]?).map confkeyval.key = (l[i]?).map confkeyval.key ∧
    ((processLine l ln)[i]?).map confkeyval.type = (l[i]?).map confkeyval.type := by
  unfold processLine
  rw [List.getElem?_map]
  cases h : l[i]? with
  | none => exact ⟨rfl, rfl⟩
  | some e =>
    by_cases hm : keyMatches e ln
    · simp [hm, (setConfVal_frame e (some (ln.drop (e.key.length + 1)))).1,
        (setConfVal_frame e (some (ln.drop (e.key.length + 1)))).2]
    · simp [hm]

/-- Folding the loader over any chunk list never writes a key or type
field. -/
theorem foldlLines_frame (chunks : List (List Char)) (l : List confkeyval) (i : Nat) :
    ((chunks.foldl (fun acc ch => processLine acc (chopLast ch)) l)[i]?).map
        confkeyval.key = (l[i]?).map confkeyval.key ∧
      ((chunks.foldl (fun acc ch => processLine acc (chopLast ch)) l)[i]?).map
        confkeyval.type = (l[i]?).map confkeyval.type := by
  induction chunks generalizing l with
  | nil => exact ⟨rfl, rfl⟩
  | cons ch rest ih =>
    rw [List.foldl_cons]
    exact ⟨((ih (processLine l (chopLast ch))).1).trans
        (processLine_frame l (chopLast ch) i).1,
      ((ih (processLine l (chopLast ch))).2).trans
        (processLine_frame l (chopLast ch) i).2⟩

/-- C10: `setConfVal`, `readConfFile` and `freeConfFile` modify only
the `val` field: every entry's `key` and `type` are preserved at every
position. -/
theorem confOps_preserve_key_type :
    (∀ e v, (setConfVal e v).2.key = e.key ∧ (setConfVal e v).2.type = e.type) ∧
    (∀ (l : List confkeyval) (cnf : List Char) (i : Nat),
      ((readConfFile l cnf)[i]?).map confkeyval.key = (l[i]?).map confkeyval.key ∧
      ((readConfFile l cnf)[i]?).map confkeyval.type = (l[i]?).map confkeyval.type) ∧
    (∀ (l : List confkeyval) (i : Nat),
      ((freeConfFile l)[i]?).map confkeyval.key = (l[i]?).map confkeyval.key ∧
      ((freeConfFile l)[i]?).map confkeyval.type = (l[i]?).map confkeyval.type) := by
  refine ⟨setConfVal_frame, fun l cnf i => ?_, fun l i => ?_⟩
  · unfold readConfFile
    exact foldlLines_frame (readLines cnf) l i
  unfold freeConfFile
  rw [List.getElem?_map]
  cases l[i]? with
  | none => exact ⟨rfl, rfl⟩
  | some e => exact ⟨rfl, rfl⟩

/-- When `firstOccurIdx` finds nothing, the pattern occurs nowhere. -/
theorem firstOccurIdx_none (pat s : List Char) (h : firstOccurIdx pat s = none) :
    ∀ i, ¬ occursAt pat s i := by
  induction s with
  | nil =>
    intro i hi
    unfold firstOccurIdx at h
    unfold occursAt at hi
    rcases pat with - | ⟨p, ps⟩
    · simp at h
    · simp [List.drop_nil] at hi
  | cons c cs ih =>
    intro i hi
    unfold firstOccurIdx at h
    split_ifs at h with h0
    have hrec : firstOccurIdx pat cs = none := by
      cases hr : firstOccurIdx pat cs with
      | none => rfl
      | some j => rw [hr] at h; simp at h
    cases i with
    | zero => exact h0 (by simpa [occursAt] using hi)
    | succ j => exact ih hrec j (by simpa [occursAt] using hi)

/-- When `firstOccurIdx` returns `i`, the pattern occurs at `i` and at
no earlier position: `strstr` finds the first occurrence. -/
theorem firstOccurIdx_some (pat s : List Char) (i : Nat)
    (h : firstOccurIdx pat s = some i) :
    occursAt pat s i ∧ ∀ j < i, ¬ occursAt pat s j := by
  induction s generalizing i with
  | nil =>
    unfold firstOccurIdx at h
    split_ifs at h with h0
    · cases h
      subst h0
      exact ⟨rfl, by omega⟩
  | cons c cs ih =>
    unfold firstOccurIdx at h
    split_ifs at h with h0
    · cases h
      exact ⟨by simpa [occursAt] using h0, by omega⟩
    · cases hr : firstOccurIdx pat cs with
      | none => rw [hr] at h; simp at h
      | some j =>
        rw [hr] at h
        have hji : j + 1 = i := by simpa using h
        subst hji
        obtain ⟨hocc, hmin⟩ := ih j hr
        refine ⟨by simpa [occursAt] using hocc, ?_⟩
        intro k hk
        cases k with
        | zero => exact fun hx => h0 (by simpa [occursAt] using hx)
        | succ m =>
          exact fun hx => hmin m (by omega) (by simpa [occursAt] using hx)

/-- C8: `replacePrefix(NULL, prefix)` is `NULL`; a template without the
9-byte token `${prefix}` is returned as an unchanged duplicate; and a
template whose first token occurrence is at `i` is returned as the
template up to `i`, then the prefix, then the template after the
token — only that first occurrence is substituted. -/
theorem replacePrefix_spec (pre : List Char) :
    replacePrefix none pre = none ∧
    (∀ s : List Char, (∀ i, ¬ occursAt substToken s i) →
      replacePrefix (some s) pre = some s) ∧
    (∀ (s : List Char) (i : Nat), occursAt substToken s i →
      (∀ j < i, ¬ occursAt substToken s j) →
      replacePrefix (some s) pre = some (s.take i ++ pre ++ s.drop (i + 9))) := by
  refine ⟨rfl, fun s hno => ?_, fun s i hocc hmin => ?_⟩
  · cases hf : firstOccurIdx substToken s with
    | none => simp only [replacePrefix, hf]
    | some j => exact absurd (firstOccurIdx_some substToken s j hf).1 (hno j)
  · cases hf : firstOccurIdx substToken s with
    | none => exact absurd hocc (firstOccurIdx_none substToken s hf i)
    | some j =>
      obtain ⟨hoccj, hminj⟩ := firstOccurIdx_some substToken s j hf
      have hij : j = i := by
        rcases Nat.lt_trichotomy j i with h | h | h
        · exact absurd hoccj (hmin j h)
        · exact h
        · exact absurd hocc (hminj i h)
      subst hij
      simp only [replacePrefix, hf]

/-- Witness for C8 at the spec's concrete scenario: substituting the
single token occurrence (at offset 4) in `lib=${prefix}/lib`. -/
theorem replacePrefix_spec_witness :
    replacePrefix (some "lib=$\x7bprefix\x7d/lib".toList) "/opt/mdb".toList =
      some "lib=/opt/mdb/lib".toList :=
  (replacePrefix_spec "/opt/mdb".toList).2.2 "lib=$\x7bprefix\x7d/lib".toList 4
    (by decide) (by decide)

/-- C6 counterexample: at `in = "abcdefghij"`, `width = 8`, the marker
`...` sits at byte offset 2 = (w/2)−2 — not (w/2)−3 = 1 as claimed —
and the byte at offset 1 is never written at all (the prefix `memcpy`
copies only `(w/2)−3` bytes while the marker starts at `(w/2)−2`), so
the claim's "every result byte is defined" also fails. -/
theorem abbreviateString_hole :
    abbreviateString "abcdefghij".toList 8 1 = none ∧
    abbreviateString "abcdefghij".toList 8 0 = some 'a' ∧
    abbreviateString "abcdefghij".toList 8 2 = some '.' ∧
    abbreviateString "abcdefghij".toList 8 3 = some '.' ∧
    abbreviateString "abcdefghij".toList 8 4 = some '.' ∧
    abbreviateString "abcdefghij".toList 8 5 = some 'h' ∧
    abbreviateString "abcdefghij".toList 8 6 = some 'i' ∧
    abbreviateString "abcdefghij".toList 8 7 = some 'j' ∧
    abbreviateString "abcdefghij".toList 8 8 = some '\x00' := by decide

/-- C6 amended: when `strlen(in) ≤ width` the output is `in` verbatim
with its terminator.  When `strlen(in) > width` (stated for
`width ≥ 6`, below which the C offset arithmetic wraps), the output
begins with the first `(width/2)−3` bytes of `in`, has the marker
`...` at offset `(width/2)−2` (not `(width/2)−3`), then the last
`width − (width/2) − 1` bytes of `in`, and a NUL at offset `width`;
the byte at offset `(width/2)−3` is never written, and nothing is
written past offset `width`. -/
theorem abbreviateString_bytes (input : List Char) (width : Nat) :
    (input.length ≤ width →
      ∀ i, abbreviateString input width i = (input ++ ['\x00'])[i]?) ∧
    (input.length > width → 6 ≤ width →
      (∀ i, i < width / 2 - 3 → abbreviateString input width i = input[i]?) ∧
      (abbreviateString input width (width / 2 - 3) = none) ∧
      (∀ i, width / 2 - 2 ≤ i → i ≤ width / 2 →
        abbreviateString input width i = some '.') ∧
      (∀ i, width / 2 + 1 ≤ i → i < width →
        abbreviateString input width i = input[input.length - (width - i)]?) ∧
      (abbreviateString input width width = some '\x00') ∧
      (∀ i, width < i → abbreviateString input width i = none)) := by
  have hd3 : ("...".toList).length = 3 := rfl
  constructor
  · intro hle i
    unfold abbreviateString
    rw [if_neg (by omega)]
    unfold memwrite emptyBuf
    split_ifs with h
    · rw [Nat.sub_zero]
    · refine (List.getElem?_eq_none ?_).symm
      simp only [List.length_append, List.length_cons, List.length_nil] at h ⊢
      omega
  · intro hgt hw
    refine ⟨?_, ?_, ?_, ?_, ?_, ?_⟩
    · intro i hi
      unfold abbreviateString
      rw [if_pos hgt]
      unfold memwrite emptyBuf
      simp only [List.length_append, List.length_take, List.length_drop,
        List.length_cons, List.length_nil, hd3]
      split_ifs with h1 h2 h3
      · exfalso; omega
      · exfalso; omega
      · rw [Nat.sub_zero, List.getElem?_take, if_pos hi]
      · exfalso; omega
    · unfold abbreviateString
      rw [if_pos hgt]
      unfold memwrite emptyBuf
      simp only [List.length_append, List.length_take, List.length_drop,
        List.length_cons, List.length_nil, hd3]
      split_ifs with h1 h2 h3
      · exfalso; omega
      · exfalso; omega
      · exfalso; omega
      · rfl
    · intro i hlo hhi
      unfold abbreviateString
      rw [if_pos hgt]
      unfold memwrite emptyBuf
      simp only [List.length_append, List.length_take, List.length_drop,
        List.length_cons, List.length_nil, hd3]
      split_ifs with h1 h2 h3
      · exfalso; omega
      · have h4 : i - (width / 2 - 2) = 0 ∨ i - (width / 2 - 2) = 1 ∨
            i - (width / 2 - 2) = 2 := by omega
        rcases h4 with h4 | h4 | h4 <;> rw [h4] <;> rfl
      · exfalso; omega
      · exfalso; omega
    · intro i hlo hhi
      unfold abbreviateString
      rw [if_pos hgt]
      unfold memwrite emptyBuf
      simp only [List.length_append, List.length_take, List.length_drop,
        List.length_cons, List.length_nil, hd3]
      split_ifs with h1 h2 h3
      · rw [List.getElem?_append]
        simp only [List.length_drop]
        rw [if_pos (by omega), List.getElem?_drop]
        congr 1
        omega
      · exfalso; omega
      · exfalso; omega
      · exfalso; omega
    · unfold abbreviateString
      rw [if_pos hgt]
      unfold memwrite emptyBuf
      simp only [List.length_append, List.length_take, List.length_drop,
        List.length_cons, List.length_nil, hd3]
      split_ifs with h1 h2 h3
      · rw [List.getElem?_append]
        simp only [List.length_drop]
        rw [if_neg (by omega)]
        have h4 : width - (width / 2 + 1) -
            (input.length - (input.length - (width - (width / 2 - 2) - 3))) = 0 := by
          omega
        rw [h4]
        rfl
      · exfalso; omega
      · exfalso; omega
      · exfalso; omega
    · intro i hi
      unfold abbreviateString
      rw [if_pos hgt]
      unfold memwrite emptyBuf
      simp only [List.length_append, List.length_take, List.length_drop,
        List.length_cons, List.length_nil, hd3]
      split_ifs with h1 h2 h3
      · exfalso; omega
      · exfalso; omega
      · exfalso; omega
      · rfl

/-- Witness for C6's amended claim: a marker byte of the abbreviation
of the ten-byte input at width 8, via the dots conjunct at offset 4. -/
theorem abbreviateString_bytes_witness :
    abbreviateString "abcdefghij".toList 8 4 = some '.' :=
  ((abbreviateString_bytes "abcdefghij".toList 8).2 (by decide)
    (by decide)).2.2.1 4 (by decide) (by decide)

/-- Every byte of the seed table is alphanumeric. -/
theorem seedChars_alnum : ∀ c ∈ seedChars, isAlnum c := by decide

/-- C9: whenever `⌊0.42·len⌋ < ⌊0.75·len⌋` (otherwise the C computes
`% 0`), for every state of the random source there is a size `s` with
`⌊0.42·len⌋ ≤ s < ⌊0.75·len⌋` such that the first `s` bytes of the
salt are drawn from the 62-character alphanumeric alphabet and the
remaining `len − s` bytes are NUL. -/
theorem generateSalt_spec (rnd : Nat → Nat) (len : Nat)
    (h : 42 * len / 100 < 3 * len / 4) :
    ∃ s, 42 * len / 100 ≤ s ∧ s < 3 * len / 4 ∧
      (∀ i < s, ∃ c, (generateSalt rnd len)[i]? = some c ∧ isAlnum c) ∧
      (∀ i, s ≤ i → i < len → (generateSalt rnd len)[i]? = some '\x00') := by
  refine ⟨rnd 0 % (3 * len / 4 - 42 * len / 100) + 42 * len / 100,
    Nat.le_add_left _ _, ?_, ?_, ?_⟩
  · have := Nat.mod_lt (rnd 0) (Nat.sub_pos_of_lt h)
    omega
  · intro i hi
    have hilen : i < len := by
      have hs : rnd 0 % (3 * len / 4 - 42 * len / 100) + 42 * len / 100 <
          3 * len / 4 := by
        have := Nat.mod_lt (rnd 0) (Nat.sub_pos_of_lt h)
        omega
      have hfl : 3 * len / 4 ≤ len := by omega
      omega
    refine ⟨seedChars.getD (rnd (i + 1) % 62) 'a', ?_, ?_⟩
    · unfold generateSalt
      rw [List.getElem?_map, List.getElem?_range hilen]
      simp only [Option.map_some']
      rw [if_pos hi]
    · have hlt : rnd (i + 1) % 62 < seedChars.length :=
        Nat.mod_lt _ (by decide)
      rw [List.getD_eq_getElem _ _ hlt]
      exact seedChars_alnum _ (List.getElem_mem hlt)
  · intro i hsi hilen
    unfold generateSalt
    rw [List.getElem?_map, List.getElem?_range hilen]
    simp only [Option.map_some']
    rw [if_neg (by omega)]

/-- Witness for C9: `len = 16` with the all-zero random stream gives
size 6 = `⌊0.42·16⌋`. -/
theorem generateSalt_spec_witness :
    42 * 16 / 100 < 3 * 16 / 4 ∧
      ∃ s, 42 * 16 / 100 ≤ s ∧ s < 3 * 16 / 4 ∧
        (∀ i < s, ∃ c, (generateSalt (fun _ => 0) 16)[i]? = some c ∧ isAlnum c) ∧
        (∀ i, s ≤ i → i < 16 → (generateSalt (fun _ => 0) 16)[i]? = some '\x00') :=
  ⟨by decide, generateSalt_spec (fun _ => 0) 16 (by decide)⟩

/-- `natToCharsAux` only ever prepends to its accumulator. -/
theorem natToCharsAux_append (fuel : Nat) :
    ∀ n acc, natToCharsAux fuel n acc = natToCharsAux fuel n [] ++ acc := by
  induction fuel with
  | zero => intro n acc; rfl
  | succ f ih =>
    intro n acc
    unfold natToCharsAux
    split_ifs
    · rfl
    · rw [ih (n / 10) (digitToChar (n % 10) :: acc),
        ih (n / 10) [digitToChar (n % 10)], List.append_assoc]
      rfl

/-- A printed number is never empty. -/
theorem natToChars_ne_nil (n : Nat) : natToChars n ≠ [] := by
  unfold natToChars natToCharsAux
  split_ifs
  · exact List.cons_ne_nil _ _
  · rw [natToCharsAux_append]
    simp

/-- Digit bytes print as digit bytes. -/
theorem isDigitChar_digitToChar (d : Nat) : isDigitChar (digitToChar d) := by
  rcases d with - | - | - | - | - | - | - | - | - | d <;>
    first
      | decide
      | exact (by decide : isDigitChar '9' = true)

/-- Every byte of a printed number is a digit byte. -/
theorem natToChars_digits (fuel : Nat) :
    ∀ n c, c ∈ natToCharsAux fuel n [] → isDigitChar c := by
  induction fuel with
  | zero => intro n c hc; simp [natToCharsAux] at hc
  | succ f ih =>
    intro n c hc
    unfold natToCharsAux at hc
    split_ifs at hc
    · rcases List.mem_singleton.mp hc with rfl
      exact isDigitChar_digitToChar n
    · rw [natToCharsAux_append] at hc
      rcases List.mem_append.mp hc with h | h
      · exact ih (n / 10) c h
      · rcases List.mem_singleton.mp h with rfl
        exact isDigitChar_digitToChar (n % 10)

/-- Reading back a digit byte below ten recovers its value. -/
theorem charToDigit_digitToChar (d : Nat) (h : d < 10) :
    charToDigit (digitToChar d) = d := by
  interval_cases d <;> rfl

/-- Folding the digit-accumulation step over a printed number shifts
the accumulator by one decimal place per digit and adds the value. -/
theorem natToChars_foldl (fuel : Nat) :
    ∀ n a, n < fuel →
      (natToCharsAux fuel n []).foldl (fun b c => b * 10 + charToDigit c) a =
        a * 10 ^ (natToCharsAux fuel n []).length + n := by
  induction fuel with
  | zero => intro n a h; omega
  | succ f ih =>
    intro n a h
    unfold natToCharsAux
    split_ifs with h10
    · simp [charToDigit_digitToChar n h10]
    · rw [natToCharsAux_append, List.foldl_append, List.length_append]
      have hrec : n / 10 < f := by omega
      rw [ih (n / 10) a hrec]
      simp only [List.foldl_cons, List.foldl_nil, List.length_cons,
        List.length_nil, charToDigit_digitToChar (n % 10) (by omega)]
      calc (a * 10 ^ (natToCharsAux f (n / 10) []).length + n / 10) * 10 + n % 10
          = a * (10 ^ (natToCharsAux f (n / 10) []).length * 10) +
              (10 * (n / 10) + n % 10) := by ring
        _ = a * 10 ^ ((natToCharsAux f (n / 10) []).length + (0 + 1)) + n := by
              rw [Nat.div_add_mod]; ring_nf

/-- Printing then parsing a number is the identity. -/
theorem charsToNat_natToChars (n : Nat) : charsToNat (natToChars n) = n := by
  unfold charsToNat natToChars
  rw [natToChars_foldl (n + 1) n 0 (Nat.lt_succ_self n)]
  simp

/-- `takeWhile` runs through a block that satisfies the predicate. -/
theorem takeWhile_append_all {α : Type} (p : α → Bool) (xs ys : List α)
    (h : ∀ x ∈ xs, p x) :
    (xs ++ ys).takeWhile p = xs ++ ys.takeWhile p := by
  induction xs with
  | nil => rfl
  | cons a l ih =>
    rw [List.cons_append, List.takeWhile_cons_of_pos (h a (List.mem_cons_self a l)),
      ih fun x hx => h x (List.mem_cons_of_mem a hx), List.cons_append]

/-- `dropWhile` runs through a block that satisfies the predicate. -/
theorem dropWhile_append_all {α : Type} (p : α → Bool) (xs ys : List α)
    (h : ∀ x ∈ xs, p x) :
    (xs ++ ys).dropWhile p = ys.dropWhile p := by
  induction xs with
  | nil => rfl
  | cons a l ih =>
    rw [List.cons_append, List.dropWhile_cons_of_pos (h a (List.mem_cons_self a l)),
      ih fun x hx => h x (List.mem_cons_of_mem a hx)]

/-- Unit letters are not digit bytes. -/
theorem unitWeight_not_digit (u : Char) (w : Nat) (h : unitWeight u = some w) :
    isDigitChar u = false := by
  unfold unitWeight at h
  split_ifs at h with h1 h2 h3 h4 h5 <;>
    first
      | (subst h1; decide)
      | (subst h2; decide)
      | (subst h3; decide)
      | (subst h4; decide)
      | (subst h5; decide)

/-- Unit weights are positive. -/
theorem unitWeight_pos (u : Char) (w : Nat) (h : unitWeight u = some w) :
    0 < w := by
  unfold unitWeight at h
  split_ifs at h <;> first | omega | (cases h; omega)

/-- Below `2^31` the `(int)` cast is the identity and `sprintf("%d")`
prints the plain decimal digits. -/
theorem intToChars_intCast32_small (v : Nat) (h : v < 2 ^ 31) :
    intToChars (intCast32 v) = natToChars v := by
  unfold intCast32
  rw [Nat.mod_eq_of_lt (by omega)]
  rw [if_pos (by exact_mod_cast h)]
  unfold intToChars
  rw [if_neg (by omega)]
  simp

/-- `renderSep` on a list of two or more components. -/
theorem renderSep_cons (c : Nat × Char) (l : List (Nat × Char)) (h : l ≠ []) :
    renderSep (c :: l) = renderComp c ++ ' ' :: renderSep l := by
  cases l with
  | nil => exact absurd rfl h
  | cons c2 rest => rfl

/-- A non-empty component list renders to a non-empty string. -/
theorem renderSep_ne_nil (c : Nat × Char) (l : List (Nat × Char)) :
    renderSep (c :: l) ≠ [] := by
  cases l with
  | nil =>
    show renderComp c ≠ []
    unfold renderComp
    simp
  | cons c2 rest =>
    rw [renderSep_cons c (c2 :: rest) (List.cons_ne_nil c2 rest)]
    simp [renderComp]

/-- The rendering is at least as long as the component list. -/
theorem renderSep_length_ge (comps : List (Nat × Char)) :
    comps.length ≤ (renderSep comps).length := by
  induction comps with
  | nil => simp [renderSep]
  | cons c l ih =>
    cases l with
    | nil =>
      show 1 ≤ (renderComp c).length
      unfold renderComp
      rcases List.exists_cons_of_ne_nil (natToChars_ne_nil c.1) with ⟨a, as, hc⟩
      rw [hc]
      simp
    | cons c2 rest =>
      rw [renderSep_cons c (c2 :: rest) (List.cons_ne_nil c2 rest)]
      simp only [List.length_append, List.length_cons]
      have := ih
      simp only [List.length_cons] at this ⊢
      omega

/-- The in-progress buffer of a concatenation. -/
theorem bufOf_append (a b : List (Nat × Char)) :
    bufOf (a ++ b) = bufOf a ++ bufOf b := by
  induction a with
  | nil => rfl
  | cons c l ih => simp [bufOf, ih]

/-- Appending the last component to an in-progress buffer, without its
trailing space, gives the finished rendering. -/
theorem bufOf_append_last (comps : List (Nat × Char)) (c : Nat × Char) :
    bufOf comps ++ renderComp c = renderSep (comps ++ [c]) := by
  induction comps with
  | nil => simp [bufOf, renderSep]
  | cons c1 l ih =>
    rw [List.cons_append,
      renderSep_cons c1 (l ++ [c]) (by simp)]
    simp only [bufOf, List.append_assoc, List.cons_append]
    rw [← ih]
    simp

/-- An in-progress buffer is non-empty when components exist. -/
theorem bufOf_ne_nil (c : Nat × Char) (l : List (Nat × Char)) :
    bufOf (c :: l) ≠ [] := by
  simp [bufOf, renderComp]

/-- Erasing the trailing space of a non-empty in-progress buffer gives
the finished rendering. -/
theorem bufOf_dropLast (comps : List (Nat × Char)) (h : comps ≠ []) :
    (bufOf comps).dropLast = renderSep comps := by
  induction comps with
  | nil => exact absurd rfl h
  | cons c l ih =>
    cases l with
    | nil =>
      show (renderComp c ++ [' '] ++ []).dropLast = renderComp c
      simp
    | cons c2 rest =>
      rw [renderSep_cons c (c2 :: rest) (List.cons_ne_nil c2 rest)]
      show (renderComp c ++ [' '] ++ bufOf (c2 :: rest)).dropLast = _
      rw [List.append_assoc, List.dropLast_append_of_ne_nil _ (by simp),
        List.dropLast_append_of_ne_nil _ (bufOf_ne_nil c2 rest),
        ih (List.cons_ne_nil c2 rest)]
      simp

/-- The running total of a component list extended on the right. -/
theorem sumC_append (a : List (Nat × Char)) (v : Nat) (u : Char) :
    sumC (a ++ [(v, u)]) = sumC a + v * weightOf u := by
  simp [sumC]

/-- Parsing a rendered component list recovers each count with the
weight its unit letter denotes. -/
theorem parseCompsAux_renderSep (comps : List (Nat × Char)) :
    comps ≠ [] → (∀ c ∈ comps, (unitWeight c.2).isSome) →
    ∀ fuel, comps.length ≤ fuel →
    parseCompsAux fuel (renderSep comps) =
      some (comps.map fun c => (c.1, weightOf c.2)) := by
  induction comps with
  | nil => intro h; exact absurd rfl h
  | cons c l ih =>
    rintro - hgood fuel hfuel
    obtain ⟨f, rfl⟩ : ∃ f, fuel = f + 1 :=
      ⟨fuel - 1, by simp only [List.length_cons] at hfuel; omega⟩
    obtain ⟨w, hw⟩ := Option.isSome_iff_exists.mp (hgood c (List.mem_cons_self c l))
    have hud : isDigitChar c.2 = false := unitWeight_not_digit c.2 w hw
    have hwt : weightOf c.2 = w := by unfold weightOf; rw [hw]; rfl
    have hdig : ∀ x ∈ natToChars c.1, isDigitChar x :=
      fun x hx => natToChars_digits (c.1 + 1) c.1 x hx
    cases l with
    | nil =>
      show parseCompsAux (f + 1) (renderComp c) = some [(c.1, weightOf c.2)]
      have hdrop : (renderComp c).dropWhile isDigitChar = [c.2] := by
        unfold renderComp
        rw [dropWhile_append_all _ _ _ hdig]
        simp [List.dropWhile_cons, hud]
      have htake : (renderComp c).takeWhile isDigitChar = natToChars c.1 := by
        unfold renderComp
        rw [takeWhile_append_all _ _ _ hdig]
        simp [List.takeWhile_cons, hud]
      simp [parseCompsAux, hdrop, htake, hw, charsToNat_natToChars,
        natToChars_ne_nil c.1, hwt]
    | cons c2 rest =>
      rw [renderSep_cons c (c2 :: rest) (List.cons_ne_nil c2 rest)]
      have hshape : renderComp c ++ ' ' :: renderSep (c2 :: rest) =
          natToChars c.1 ++ (c.2 :: ' ' :: renderSep (c2 :: rest)) := by
        unfold renderComp
        simp
      rw [hshape]
      have hdrop : (natToChars c.1 ++
          (c.2 :: ' ' :: renderSep (c2 :: rest))).dropWhile isDigitChar =
          c.2 :: ' ' :: renderSep (c2 :: rest) := by
        rw [dropWhile_append_all _ _ _ hdig]
        simp [List.dropWhile_cons, hud]
      have htake : (natToChars c.1 ++
          (c.2 :: ' ' :: renderSep (c2 :: rest))).takeWhile isDigitChar =
          natToChars c.1 := by
        rw [takeWhile_append_all _ _ _ hdig]
        simp [List.takeWhile_cons, hud]
      have hrec : parseCompsAux f (renderSep (c2 :: rest)) =
          some ((c2 :: rest).map fun d => (d.1, weightOf d.2)) := by
        refine ih (List.cons_ne_nil c2 rest)
          (fun d hd => hgood d (List.mem_cons_of_mem c hd)) f ?_
        simp only [List.length_cons] at hfuel ⊢
        omega
      simp [parseCompsAux, hdrop, htake, hw, charsToNat_natToChars,
        natToChars_ne_nil c.1, hwt, renderSep_ne_nil c2 rest, hrec]

/-- Parse-then-sum of a rendered component list is its weighted
total. -/
theorem parse_renderSep_sum (comps : List (Nat × Char)) (hne : comps ≠ [])
    (hgood : ∀ c ∈ comps, (unitWeight c.2).isSome) :
    (parseComps (renderSep comps)).map sumComps = some (sumC comps) := by
  unfold parseComps
  rw [parseCompsAux_renderSep comps hne hgood _ (renderSep_length_ge comps)]
  simp only [Option.map_some']
  unfold sumComps sumC
  rw [List.map_map]
  rfl

/-- The invariant carried through one unit block of `secondsToString`
when no early return has fired and the `longness` budget (started at
5) cannot run out: the buffer stays a rendered component list with its
trailing space, the weighted total plus the remaining seconds is the
original input, every printed count fits in `int`, and the remaining
seconds drop to at most the block's weight. -/
theorem s2sBlock_spec (p : Nat) (u : Char) (tot : Nat) (s : S2S)
    (comps : List (Nat × Char))
    (hu : unitWeight u = some p)
    (hbuf : s.buf = bufOf comps)
    (hdone : s.done = false)
    (hl : s.longness = 5 - (comps.length : Int))
    (hk : comps.length ≤ 3)
    (hsum : sumC comps + s.t = tot)
    (hgood : ∀ c ∈ comps, (unitWeight c.2).isSome)
    (ht : s.t < 2 ^ 31 * p) :
    ∃ comps2, (s2sBlock p u s).buf = bufOf comps2 ∧
      (s2sBlock p u s).done = false ∧
      (s2sBlock p u s).longness = 5 - (comps2.length : Int) ∧
      comps2.length ≤ comps.length + 1 ∧
      sumC comps2 + (s2sBlock p u s).t = tot ∧
      (∀ c ∈ comps2, (unitWeight c.2).isSome) ∧
      (s2sBlock p u s).t ≤ p := by
  have hp : 0 < p := unitWeight_pos u p hu
  have h0 : ¬ (s.done = true) := by rw [hdone]; simp
  unfold s2sBlock
  rw [if_neg h0]
  by_cases hgt : s.t > p
  · rw [if_pos hgt]
    have hne0 : ¬ (s.longness - 1 = 0) := by rw [hl]; omega
    rw [if_neg hne0]
    have hdiv : s.t / p < 2 ^ 31 := (Nat.div_lt_iff_lt_mul hp).mpr ht
    refine ⟨comps ++ [(s.t / p, u)], ?_, rfl, ?_, by simp, ?_, ?_, ?_⟩
    · show s.buf ++ intToChars (intCast32 (s.t / p)) ++ [u] ++ [' '] =
        bufOf (comps ++ [(s.t / p, u)])
      rw [hbuf, bufOf_append, intToChars_intCast32_small _ hdiv]
      simp [bufOf, renderComp]
    · show s.longness - 1 = 5 - ((comps ++ [(s.t / p, u)]).length : Int)
      rw [hl, List.length_append]
      simp only [List.length_singleton]
      push_cast
      omega
    · show sumC (comps ++ [(s.t / p, u)]) + (s.t - s.t / p * p) = tot
      have hwt : weightOf u = p := by unfold weightOf; rw [hu]; rfl
      rw [sumC_append, hwt]
      have hle : s.t / p * p ≤ s.t := Nat.div_mul_le_self s.t p
      omega
    · intro d hd
      rcases List.mem_append.mp hd with hmem | hmem
      · exact hgood d hmem
      · rcases List.mem_singleton.mp hmem with rfl
        simp [hu]
    · show s.t - s.t / p * p ≤ p
      have h1 := Nat.div_add_mod s.t p
      have h2 := Nat.mod_lt s.t hp
      rw [mul_comm] at h1
      omega
  · rw [if_neg hgt]
    exact ⟨comps, hbuf, hdone, hl, by omega, hsum, hgood, by omega⟩

/-- The invariant through the final seconds block: whatever branch is
taken, the buffer parses back and its weighted total is the original
input. -/
theorem s2sFinal_spec (tot : Nat) (s : S2S) (comps : List (Nat × Char))
    (hbuf : s.buf = bufOf comps)
    (hdone : s.done = false)
    (hsum : sumC comps + s.t = tot)
    (hgood : ∀ c ∈ comps, (unitWeight c.2).isSome)
    (ht : s.t ≤ 60) :
    (parseComps (s2sFinal s)).map sumComps = some tot := by
  have h0 : ¬ (s.done = true) := by rw [hdone]; simp
  unfold s2sFinal
  rw [if_neg h0]
  by_cases hcond : s.longness - 1 = 0 ∨ ¬ (s.buf.length > 0 ∧ s.t = 0)
  · rw [if_pos hcond]
    have hsmall : s.t < 2 ^ 31 := by omega
    rw [hbuf, intToChars_intCast32_small _ hsmall]
    have hshape : bufOf comps ++ natToChars s.t ++ ['s'] =
        renderSep (comps ++ [(s.t, 's')]) := by
      rw [List.append_assoc]
      exact bufOf_append_last comps (s.t, 's')
    rw [hshape, parse_renderSep_sum _ (by simp) ?good]
    case good =>
      intro d hd
      rcases List.mem_append.mp hd with hmem | hmem
      · exact hgood d hmem
      · rcases List.mem_singleton.mp hmem with rfl
        show (unitWeight 's').isSome = true
        decide
    congr 1
    rw [sumC_append]
    have hwt : weightOf 's' = 1 := rfl
    rw [hwt, mul_one]
    omega
  · rw [if_neg hcond]
    push_neg at hcond
    obtain ⟨-, hb1, ht0⟩ := hcond
    have hcne : comps ≠ [] := by
      intro hc
      rw [hc] at hbuf
      rw [hbuf] at hb1
      simp [bufOf] at hb1
    rw [hbuf, bufOf_dropLast comps hcne, parse_renderSep_sum comps hcne hgood]
    congr 1
    omega

/-- C7 counterexample: at `t = 604800·2^31` (representable in a 64-bit
`time_t`) the week count `t / 604800 = 2^31` overflows the `(int)`
cast in `sprintf("%dw", (int)(t / p))`, the buffer becomes
`-2147483648w`, and parsing it as components fails — so its weighted
sum is not `t`. -/
theorem secondsToString_int_overflow :
    secondsToString (604800 * 2 ^ 31) 5 = "-2147483648w".toList ∧
      parseComps (secondsToString (604800 * 2 ^ 31) 5) = none := by
  constructor <;> decide

/-- C7 amended: for every `t` below `604800·2^31` (where no printed
count overflows the `(int)` cast), the string `secondsToString(buf, t,
5)` parses as space-separated components — each an integer followed by
one of `w d h m s` — whose values, weighted by 604800, 86400, 3600,
60, 1 respectively, sum to exactly `t`. -/
theorem secondsToString_roundtrip (t : Nat) (h : t < 604800 * 2 ^ 31) :
    (parseComps (secondsToString t 5)).map sumComps = some t := by
  obtain ⟨c1, hb1, hd1, hl1, hk1, hs1, hg1, ht1⟩ :=
    s2sBlock_spec 604800 'w' t ⟨[], t, 5, false⟩ [] (by decide) rfl rfl
      (by norm_num) (by norm_num) (by simp [sumC]) (by simp)
      (by rw [Nat.mul_comm]; exact h)
  obtain ⟨c2, hb2, hd2, hl2, hk2, hs2, hg2, ht2⟩ :=
    s2sBlock_spec 86400 'd' t _ c1 (by decide) hb1 hd1 hl1
      (by simp only [List.length_nil] at hk1; omega) hs1 hg1
      (lt_of_le_of_lt ht1 (by norm_num))
  obtain ⟨c3, hb3, hd3, hl3, hk3, hs3, hg3, ht3⟩ :=
    s2sBlock_spec 3600 'h' t _ c2 (by decide) hb2 hd2 hl2
      (by simp only [List.length_nil] at hk1; omega) hs2 hg2
      (lt_of_le_of_lt ht2 (by norm_num))
  obtain ⟨c4, hb4, hd4, hl4, hk4, hs4, hg4, ht4⟩ :=
    s2sBlock_spec 60 'm' t _ c3 (by decide) hb3 hd3 hl3
      (by simp only [List.length_nil] at hk1; omega) hs3 hg3
      (lt_of_le_of_lt ht3 (by norm_num))
  unfold secondsToString
  exact s2sFinal_spec t _ c4 hb4 hd4 hs4 hg4 ht4

/-- Witness for C7's amended claim at the spec's own scenario
`t = 90061` (which formats as `1d 1h 1m 1s`). -/
theorem secondsToString_roundtrip_witness :
    90061 < 604800 * 2 ^ 31 ∧
      (parseComps (secondsToString 90061 5)).map sumComps = some 90061 :=
  ⟨by decide, secondsToString_roundtrip 90061 (by decide)⟩
